import Mathlib

/-!
Verification development for the redundancy-elimination stage of the Dart VM
compiler backend (alias classification, load forwarding, catch-entry
environment synchronization).  The repository snapshot ships only the unit
tests of this stage (`runtime/vm/compiler/backend/redundancy_elimination_test.cc`);
the engines themselves (`AliasedSet` / `LoadOptimizer` / `TryCatchAnalyzer` in
`redundancy_elimination.cc`) are not part of the snapshot, so the definitions
below are modelled from the specification and checked against the behaviors
the shipped tests pin down.
-/

namespace RE

/-- Modelled from the spec: the three identity-preserving wrapper instructions
of §4.1 (redefinition markers, null-check assertions, assignability casts),
mirroring `RedefinitionInstr`, `CheckNullInstr` and `AssertAssignableInstr`
which the tests build via `MakeRedefinition` / `MakeCheckNull` /
`MakeAssertAssignable`. -/
inductive WrapKind where
  | redefinition
  | checkNull
  | assertAssignable
deriving DecidableEq

/-- Modelled from the spec: the instruction forms of the flow-graph data model
(§2, §3) that the missing `redundancy_elimination.cc` engines operate on, in a
single-block straight-line program.  Operands are indices of earlier
instructions (SSA).  `allocObj` is `AllocateObjectInstr`, `loadField` is
`LoadFieldInstr` (operand, slot id), `storeField` is `StoreInstanceFieldInstr`
(host, slot id, value), `wrapper` covers the three identity-preserving
wrappers, `staticCall` is `StaticCallInstr` with its pushed arguments and
`ret` is `ReturnInstr`. -/
inductive Instr where
  | allocObj
  | loadField (obj slot : Nat)
  | storeField (host slot value : Nat)
  | wrapper (kind : WrapKind) (obj : Nat)
  | staticCall (args : List Nat)
  | ret (val : Nat)
deriving DecidableEq

/-- Operand indices consumed by an instruction (its Value edges). -/
def Instr.operands : Instr → List Nat
  | .allocObj => []
  | .loadField obj _ => [obj]
  | .storeField host _ value => [host, value]
  | .wrapper _ obj => [obj]
  | .staticCall args => args
  | .ret val => [val]

/-- A program is the ordered instruction list of the single block. -/
abbrev Program := List Instr

/-- Well-formedness: every operand refers to a strictly earlier instruction
(SSA order inside the block). -/
def wfB (p : Program) : Bool :=
  (List.range p.length).all fun i =>
    ((p.getD i .allocObj).operands).all fun v => decide (v < i)

/-- Modelled from the spec: resolving an SSA value through the chain of
identity-preserving wrappers (§4.1) down to the underlying definition.
`baseFuel p f i` follows at most `f` wrapper links starting at `i`; links are
only followed downwards, as SSA well-formedness guarantees. -/
def baseFuel (p : Program) : Nat → Nat → Nat
  | 0, i => i
  | f + 1, i =>
    match p.getD i .allocObj with
    | .wrapper _ j => if j < i then baseFuel p f j else i
    | _ => i

/-- Modelled from the spec: `OriginalDefinition` — the underlying definition
reached by following the identity-preserving wrapper chain (§4.1). -/
def base (p : Program) (i : Nat) : Nat := baseFuel p (i + 1) i

/-- Whether index `a` holds an allocation instruction of the program. -/
def isAllocAt (p : Program) (a : Nat) : Bool :=
  match p[a]? with
  | some .allocObj => true
  | _ => false

/-- Modelled from the spec: some member of an allocation's wrapper closure is
passed as an argument to a call (§4.1 escape source). -/
def passedAsArg (p : Program) (a : Nat) : Bool :=
  (List.range p.length).any fun i =>
    match p.getD i .allocObj with
    | .staticCall args => args.any fun v => base p v == a
    | _ => false

/-- Modelled from the spec: some member of an allocation's wrapper closure is
returned (§4.1 escape source). -/
def returnedVal (p : Program) (a : Nat) : Bool :=
  (List.range p.length).any fun i =>
    match p.getD i .allocObj with
    | .ret v => base p v == a
    | _ => false

/-- Modelled from the spec: the direct escape sources of §4.1 — passed as a
call argument or returned. -/
def escapesDirectly (p : Program) (a : Nat) : Bool :=
  passedAsArg p a || returnedVal p a

/-- Modelled from the spec: the hosts (resolved through wrappers) of the
stores in which a member of `a`'s wrapper closure occurs as the stored value
(§4.1: "stored as the value of a field store whose host ..."). -/
def storeHosts (p : Program) (a : Nat) : List Nat :=
  (List.range p.length).filterMap fun i =>
    match p.getD i .allocObj with
    | .storeField h _ v => if base p v == a then some (base p h) else none
    | _ => none

/-- Modelled from the spec: one refinement step of the alias classifier's
fixed point (§4.1): an allocation additionally becomes aliased when it is
stored into a host that is not a tracked allocation, or into a host already
known to be aliased (the retroactive escape-through-containment of §4.3). -/
def aliasedStep (p : Program) (S : Nat → Bool) (a : Nat) : Bool :=
  S a || (storeHosts p a).any fun b => !(isAllocAt p b) || S b

/-- Modelled from the spec: iterated alias classification — iteration `0`
holds the direct escapes, each further iteration adds one round of
store-based propagation. -/
def aliasedIter (p : Program) : Nat → Nat → Bool
  | 0, a => escapesDirectly p a
  | k + 1, a => aliasedStep p (aliasedIter p k) a

/-- Modelled from the spec: the alias classifier's verdict after reaching its
fixed point (`p.length` rounds suffice, as proved below). -/
def canBeAliased (p : Program) (a : Nat) : Bool :=
  aliasedIter p p.length a

/-- Modelled from the spec: the three-valued `AliasIdentity` verdict of the
data model (§3). -/
inductive AliasIdentity where
  | Unknown
  | NotAliased
  | Aliased
deriving DecidableEq

/-- Modelled from the spec: the final `AliasIdentity` verdict attached to each
definition — `Aliased`/`NotAliased` for allocations according to the fixed
point, `Unknown` for non-allocations (§4.1, §7 conservative fallback). -/
def Identity (p : Program) (a : Nat) : AliasIdentity :=
  if isAllocAt p a then
    (if canBeAliased p a then .Aliased else .NotAliased)
  else .Unknown

theorem baseFuel_congr (p : Program) :
    ∀ i f g, i < f → i < g → baseFuel p f i = baseFuel p g i := by
  intro i
  induction i using Nat.strong_induction_on with
  | _ i ih =>
    intro f g hf hg
    obtain ⟨f, rfl⟩ : ∃ k, f = k + 1 := ⟨f - 1, by omega⟩
    obtain ⟨g, rfl⟩ : ∃ k, g = k + 1 := ⟨g - 1, by omega⟩
    simp only [baseFuel]
    split
    · next k j heq =>
      by_cases hj : j < i
      · simp only [if_pos hj]
        exact ih j hj _ _ (by omega) (by omega)
      · simp only [if_neg hj]
    · rfl

theorem base_wrapper (p : Program) {i j : Nat} {k : WrapKind}
    (h : p.getD i .allocObj = .wrapper k j) (hj : j < i) :
    base p i = base p j := by
  show baseFuel p (i + 1) i = base p j
  simp only [baseFuel, h]
  simp only [if_pos hj]
  exact baseFuel_congr p j i (j + 1) hj (Nat.lt_succ_self j)

theorem base_of_not_wrapper (p : Program) {i : Nat}
    (h : ∀ k j, p.getD i .allocObj ≠ .wrapper k j) : base p i = i := by
  show baseFuel p (i + 1) i = i
  simp only [baseFuel]

theorem base_le (p : Program) : ∀ i, base p i ≤ i := by
  intro i
  induction i using Nat.strong_induction_on with
  | _ i ih =>
    cases hw : p.getD i .allocObj
    case wrapper k j =>
      by_cases hj : j < i
      · rw [base_wrapper p hw hj]
        exact le_trans (ih j hj) (le_of_lt hj)
      · show baseFuel p (i + 1) i ≤ i
        simp only [baseFuel, hw, if_neg hj]
        exact Nat.le_refl i
    all_goals
      rw [base_of_not_wrapper p (by intro a b; rw [hw]; simp)]

theorem wf_operand_lt {p : Program} (hwf : wfB p = true) {i v : Nat}
    (hi : i < p.length) (hv : v ∈ (p.getD i .allocObj).operands) : v < i := by
  unfold wfB at hwf
  rw [List.all_eq_true] at hwf
  have h1 := hwf i (List.mem_range.mpr hi)
  rw [List.all_eq_true] at h1
  have h2 := h1 v hv
  exact of_decide_eq_true h2

theorem passedAsArg_lt {p : Program} (hwf : wfB p = true) {a : Nat}
    (h : passedAsArg p a = true) : a < p.length := by
  unfold passedAsArg at h
  rw [List.any_eq_true] at h
  obtain ⟨i, hi, hm⟩ := h
  rw [List.mem_range] at hi
  cases hg : p.getD i .allocObj <;> rw [hg] at hm <;> simp at hm
  case staticCall args =>
    obtain ⟨v, hv, hba⟩ := hm
    have hvi : v < i := wf_operand_lt hwf hi (by rw [hg]; exact hv)
    have := base_le p v
    omega

theorem returnedVal_lt {p : Program} (hwf : wfB p = true) {a : Nat}
    (h : returnedVal p a = true) : a < p.length := by
  unfold returnedVal at h
  rw [List.any_eq_true] at h
  obtain ⟨i, hi, hm⟩ := h
  rw [List.mem_range] at hi
  cases hg : p.getD i .allocObj <;> rw [hg] at hm <;> simp at hm
  case ret v =>
    have hvi : v < i := wf_operand_lt hwf hi (by rw [hg]; simp [Instr.operands])
    have := base_le p v
    omega

theorem storeHosts_mem {p : Program} {a b : Nat} (h : b ∈ storeHosts p a) :
    ∃ i < p.length, ∃ hh s v, p.getD i .allocObj = .storeField hh s v ∧
      base p v = a ∧ base p hh = b := by
  unfold storeHosts at h
  rw [List.mem_filterMap] at h
  obtain ⟨i, hi, hm⟩ := h
  rw [List.mem_range] at hi
  cases hg : p.getD i .allocObj <;> rw [hg] at hm <;> simp at hm
  case storeField hh s v =>
    exact ⟨i, hi, hh, s, v, hg, hm.1, hm.2⟩

theorem storeHosts_lt {p : Program} (hwf : wfB p = true) {a b : Nat}
    (h : b ∈ storeHosts p a) : a < p.length ∧ b < p.length := by
  obtain ⟨i, hi, hh, s, v, hg, hba, hbb⟩ := storeHosts_mem h
  have hv : v < i := wf_operand_lt hwf hi (by rw [hg]; simp [Instr.operands])
  have hhh : hh < i := wf_operand_lt hwf hi (by rw [hg]; simp [Instr.operands])
  have h1 := base_le p v
  have h2 := base_le p hh
  omega

theorem aliasedIter_succ (p : Program) (k a : Nat) :
    aliasedIter p (k + 1) a = aliasedStep p (aliasedIter p k) a := rfl

theorem aliasedIter_mono_succ {p : Program} {k a : Nat}
    (h : aliasedIter p k a = true) : aliasedIter p (k + 1) a = true := by
  rw [aliasedIter_succ]
  unfold aliasedStep
  rw [h]
  rfl

theorem aliasedIter_mono {p : Program} {k m a : Nat} (hkm : k ≤ m)
    (h : aliasedIter p k a = true) : aliasedIter p m a = true := by
  induction m, hkm using Nat.le_induction with
  | base => exact h
  | succ m hm ih => exact aliasedIter_mono_succ ih

theorem aliasedIter_lt {p : Program} (hwf : wfB p = true) :
    ∀ {k a : Nat}, aliasedIter p k a = true → a < p.length := by
  intro k
  induction k with
  | zero =>
    intro a h
    unfold aliasedIter escapesDirectly at h
    rw [Bool.or_eq_true] at h
    cases h with
    | inl h => exact passedAsArg_lt hwf h
    | inr h => exact returnedVal_lt hwf h
  | succ k ih =>
    intro a h
    rw [aliasedIter_succ] at h
    unfold aliasedStep at h
    rw [Bool.or_eq_true] at h
    cases h with
    | inl h => exact ih h
    | inr h =>
      rw [List.any_eq_true] at h
      obtain ⟨b, hb, _⟩ := h
      exact (storeHosts_lt hwf hb).1

/-- The set of allocation indices already classified as aliased after `k`
refinement rounds. -/
def aliasedSet (p : Program) (k : Nat) : Finset Nat :=
  (Finset.range p.length).filter fun a => aliasedIter p k a = true

theorem aliasedSet_mono (p : Program) (k : Nat) :
    aliasedSet p k ⊆ aliasedSet p (k + 1) := by
  intro a ha
  rw [aliasedSet, Finset.mem_filter] at ha ⊢
  exact ⟨ha.1, aliasedIter_mono_succ ha.2⟩

theorem exists_alias_fix {p : Program} (hwf : wfB p = true) :
    ∃ k ≤ p.length, ∀ a, aliasedIter p k a = aliasedIter p (k + 1) a := by
  by_contra hcon
  push_neg at hcon
  have hstep : ∀ k ≤ p.length, (aliasedSet p k).card + 1 ≤ (aliasedSet p (k + 1)).card := by
    intro k hk
    obtain ⟨a, ha⟩ := hcon k hk
    have h1 : aliasedIter p k a = false := by
      cases h : aliasedIter p k a with
      | false => rfl
      | true => exact absurd (aliasedIter_mono_succ h) (by rw [h] at ha; exact fun hc => ha hc.symm)
    have h2 : aliasedIter p (k + 1) a = true := by
      cases h : aliasedIter p (k + 1) a with
      | false => rw [h, h1] at ha; exact absurd rfl ha
      | true => rfl
    have hmem : a ∈ aliasedSet p (k + 1) := by
      rw [aliasedSet, Finset.mem_filter]
      exact ⟨Finset.mem_range.mpr (aliasedIter_lt hwf h2), h2⟩
    have hnmem : a ∉ aliasedSet p k := by
      rw [aliasedSet, Finset.mem_filter]
      rw [h1]
      simp
    have hss : aliasedSet p k ⊂ aliasedSet p (k + 1) :=
      (Finset.ssubset_iff_of_subset (aliasedSet_mono p k)).mpr ⟨a, hmem, hnmem⟩
    exact Finset.card_lt_card hss
  have hge : ∀ k ≤ p.length + 1, k ≤ (aliasedSet p k).card := by
    intro k
    induction k with
    | zero => intro _; exact Nat.zero_le _
    | succ k ih =>
      intro hk
      have := hstep k (by omega)
      have := ih (by omega)
      omega
  have hbound : (aliasedSet p (p.length + 1)).card ≤ p.length := by
    calc (aliasedSet p (p.length + 1)).card
        ≤ (Finset.range p.length).card := Finset.card_le_card (Finset.filter_subset _ _)
      _ = p.length := Finset.card_range _
  have := hge (p.length + 1) (Nat.le_refl _)
  omega

theorem aliasedIter_stable {p : Program} {k : Nat}
    (hfix : ∀ a, aliasedIter p k a = aliasedIter p (k + 1) a) :
    ∀ m, k ≤ m → ∀ a, aliasedIter p m a = aliasedIter p k a := by
  intro m hm
  induction m, hm using Nat.le_induction with
  | base => intro a; rfl
  | succ m hkm ih =>
    intro a
    have hfun : aliasedIter p m = aliasedIter p k := funext ih
    rw [aliasedIter_succ]
    unfold aliasedStep
    rw [hfun]
    have := (hfix a).symm
    rw [aliasedIter_succ] at this
    unfold aliasedStep at this
    exact this

theorem canBeAliased_fixpoint {p : Program} (hwf : wfB p = true) :
    ∀ a, canBeAliased p a = aliasedStep p (canBeAliased p) a := by
  obtain ⟨k, hk, hfix⟩ := exists_alias_fix hwf
  intro a
  have hfun : canBeAliased p = aliasedIter p k := by
    funext x
    exact aliasedIter_stable hfix p.length hk x
  rw [hfun]
  calc aliasedIter p k a
      = aliasedIter p (k + 1) a := hfix a
    _ = aliasedStep p (aliasedIter p k) a := rfl

theorem aliased_of_escape {p : Program} {a : Nat}
    (h : escapesDirectly p a = true) : canBeAliased p a = true :=
  aliasedIter_mono (Nat.zero_le _) h

theorem aliased_of_store {p : Program} (hwf : wfB p = true) {a b : Nat}
    (hb : b ∈ storeHosts p a) (hcb : canBeAliased p b = true) :
    canBeAliased p a = true := by
  rw [canBeAliased_fixpoint hwf a]
  unfold aliasedStep
  rw [Bool.or_eq_true, List.any_eq_true]
  exact Or.inr ⟨b, hb, by rw [hcb]; simp⟩

theorem notAliased_closure {p : Program} {a : Nat}
    (h1 : escapesDirectly p a = false)
    (h2 : ∀ b ∈ storeHosts p a, isAllocAt p b = true ∧ canBeAliased p b = false) :
    canBeAliased p a = false := by
  have key : ∀ k, k ≤ p.length → aliasedIter p k a = false := by
    intro k
    induction k with
    | zero => intro _; exact h1
    | succ k ih =>
      intro hk
      rw [aliasedIter_succ]
      unfold aliasedStep
      rw [ih (by omega)]
      rw [Bool.false_or]
      rw [List.any_eq_false]
      intro b hb
      obtain ⟨hball, hbcb⟩ := h2 b hb
      rw [hball]
      simp only [Bool.not_true, Bool.false_or]
      intro hcontra
      have hlen : aliasedIter p p.length b = true := aliasedIter_mono (by omega) hcontra
      unfold canBeAliased at hbcb
      rw [hlen] at hbcb
      exact Bool.noConfusion hbcb
  exact key p.length (Nat.le_refl _)

theorem notAliased_no_escape {p : Program} (hwf : wfB p = true) {a : Nat}
    (h : canBeAliased p a = false) :
    escapesDirectly p a = false ∧
      ∀ b ∈ storeHosts p a, isAllocAt p b = true ∧ canBeAliased p b = false := by
  constructor
  · cases he : escapesDirectly p a with
    | false => rfl
    | true => rw [aliased_of_escape he] at h; exact absurd h (by simp)
  · intro b hb
    have hfix := canBeAliased_fixpoint hwf a
    rw [h] at hfix
    unfold aliasedStep at hfix
    rw [h, Bool.false_or] at hfix
    have hany := hfix.symm
    rw [List.any_eq_false] at hany
    have hbfact := hany b hb
    have hbfact2 : (!isAllocAt p b || canBeAliased p b) = false := by
      cases hx : (!isAllocAt p b || canBeAliased p b) with
      | false => rfl
      | true => exact absurd hx hbfact
    rw [Bool.or_eq_false_iff] at hbfact2
    obtain ⟨hnotalloc, hcb⟩ := hbfact2
    constructor
    · cases hia : isAllocAt p b with
      | false => rw [hia] at hnotalloc; exact absurd hnotalloc (by simp)
      | true => rfl
    · exact hcb

/-- Straight-line program mirroring `TestAliasingViaStore` with
`make_host_escape = true`: `0: v0 = AllocateObject; 1: v5 = AllocateObject;
2: v1 = LoadField(v0.f); 3: v2 = Redefinition(v5); 4: StoreField(v2.f = v0);
5: StaticCall(v1, v5); 6: v4 = LoadField(v0.f); 7: Return v4`. -/
def exHostEscape : Program :=
  [.allocObj, .allocObj, .loadField 0 0, .wrapper .redefinition 1,
   .storeField 3 0 0, .staticCall [2, 1], .loadField 0 0, .ret 6]

/-- Program with a chain of all three identity-preserving wrapper kinds whose
end is passed to a call: `0: v0 = AllocateObject; 1: CheckNull(v0);
2: Redefinition(v1); 3: AssertAssignable(v2); 4: StaticCall(v3)`. -/
def exChainEscape : Program :=
  [.allocObj, .wrapper .checkNull 0, .wrapper .redefinition 1,
   .wrapper .assertAssignable 2, .staticCall [3]]

/-- Program with a chain of all three wrapper kinds where only a field load
through the chain is passed, so the allocation never escapes:
`0: v0 = AllocateObject; 1: AssertAssignable(v0); 2: CheckNull(v1);
3: Redefinition(v2); 4: v = LoadField(v3.f); 5: StaticCall(v4); 6: Return v4`. -/
def exChainLocal : Program :=
  [.allocObj, .wrapper .assertAssignable 0, .wrapper .checkNull 1,
   .wrapper .redefinition 2, .loadField 3 0, .staticCall [4], .ret 4]

/-- Straight-line program mirroring `TestAliasingViaStore` with
`make_it_escape = false, make_host_escape = false`: `0: v0 = AllocateObject;
1: v5 = AllocateObject; 2: StoreField(v5.f = v0); 3: v1 = LoadField(v0.f);
4: v2 = Redefinition(v5); 5: StaticCall(v1); 6: v4 = LoadField(v0.f);
7: Return v4`. -/
def exStoreLocal : Program :=
  [.allocObj, .allocObj, .storeField 1 0 0, .loadField 0 0,
   .wrapper .redefinition 1, .staticCall [3], .loadField 0 0, .ret 6]

/-- C1: an allocation `a` stored into a field of a host allocation `b`, where
`b` (or an identity-preserving wrapper of `b`) is passed as a call argument,
is classified `Aliased` at the end of the pass, even if `a` itself is never
directly passed or returned (nothing about `a`'s own direct uses is
assumed). -/
theorem storeIntoEscapingHostAliases (p : Program) (a b : Nat)
    (hwf : wfB p = true) (ha : isAllocAt p a = true)
    (hstore : b ∈ storeHosts p a) (hpass : passedAsArg p b = true) :
    Identity p a = .Aliased := by
  have hcb : canBeAliased p b = true := by
    refine aliased_of_escape ?_
    unfold escapesDirectly
    rw [hpass]
    rfl
  have hca : canBeAliased p a = true := aliased_of_store hwf hstore hcb
  simp [Identity, ha, hca]

/-- Witness for C1 on the `EscapeViaHost` test graph: `v0` (index 0) is
stored into `v5` (index 1) through the redefinition, and `v5` is passed to
the call, so `v0` ends `Aliased`. -/
theorem storeIntoEscapingHostAliasesWitness :
    wfB exHostEscape = true ∧ isAllocAt exHostEscape 0 = true ∧
    (1 : Nat) ∈ storeHosts exHostEscape 0 ∧ passedAsArg exHostEscape 1 = true ∧
    Identity exHostEscape 0 = .Aliased :=
  ⟨by decide, by decide, by decide, by decide,
   storeIntoEscapingHostAliases exHostEscape 0 1 (by decide) (by decide)
     (by decide) (by decide)⟩

/-- C2: the classifier follows the use-list transitively through chains of
identity-preserving wrappers (`base` resolves every chain): if any closure
member is passed as a call argument the allocation is `Aliased`, and if no
closure member escapes (not passed, not returned, only stored into local
allocation hosts) the allocation is `NotAliased`.  The statement is
wrapper-kind agnostic, so it holds for each of the three kinds and chains
thereof. -/
theorem wrapperClosureClassification (p : Program) (a : Nat)
    (hwf : wfB p = true) (ha : isAllocAt p a = true) :
    (passedAsArg p a = true → Identity p a = .Aliased) ∧
    ((escapesDirectly p a = false ∧
        ∀ b ∈ storeHosts p a, isAllocAt p b = true ∧ Identity p b = .NotAliased) →
      Identity p a = .NotAliased) := by
  constructor
  · intro hp
    have hca : canBeAliased p a = true := by
      refine aliased_of_escape ?_
      unfold escapesDirectly
      rw [hp]
      rfl
    simp [Identity, ha, hca]
  · rintro ⟨h1, h2⟩
    have h2b : ∀ b ∈ storeHosts p a, isAllocAt p b = true ∧ canBeAliased p b = false := by
      intro b hb
      obtain ⟨hab, hid⟩ := h2 b hb
      refine ⟨hab, ?_⟩
      cases hcb : canBeAliased p b with
      | true => simp [Identity, hab, hcb] at hid
      | false => rfl
    have hca : canBeAliased p a = false := notAliased_closure h1 h2b
    simp [Identity, ha, hca]

/-- Witness for C2 on two wrapper-chain programs covering all three wrapper
kinds: the chain whose end is passed yields `Aliased`; the chain that never
escapes yields `NotAliased`. -/
theorem wrapperClosureClassificationWitness :
    (wfB exChainEscape = true ∧ isAllocAt exChainEscape 0 = true ∧
      passedAsArg exChainEscape 0 = true ∧ Identity exChainEscape 0 = .Aliased) ∧
    (wfB exChainLocal = true ∧ isAllocAt exChainLocal 0 = true ∧
      escapesDirectly exChainLocal 0 = false ∧
      Identity exChainLocal 0 = .NotAliased) :=
  ⟨⟨by decide, by decide, by decide,
    (wrapperClosureClassification exChainEscape 0 (by decide) (by decide)).1
      (by decide)⟩,
   ⟨by decide, by decide, by decide,
    (wrapperClosureClassification exChainLocal 0 (by decide) (by decide)).2
      ⟨by decide, by decide⟩⟩⟩

/-- C3: storing allocation `a` into a field of a host allocation `b` that is
classified `NotAliased` does not, by itself, alias `a`: if `b` never escapes
(not passed/returned, never itself stored anywhere) and nothing else in `a`'s
use closure escapes (not passed/returned, stored only into `b`), both `a`
and `b` end the pass classified `NotAliased`. -/
theorem storeIntoLocalHostNotAliased (p : Program) (a b : Nat)
    (hwf : wfB p = true) (ha : isAllocAt p a = true) (hb : isAllocAt p b = true)
    (hstore : b ∈ storeHosts p a)
    (hbNoEsc : escapesDirectly p b = false) (hbNoStore : storeHosts p b = [])
    (haNoEsc : escapesDirectly p a = false)
    (haHosts : ∀ c ∈ storeHosts p a, c = b) :
    Identity p a = .NotAliased ∧ Identity p b = .NotAliased := by
  have hcbB : canBeAliased p b = false := by
    refine notAliased_closure hbNoEsc ?_
    rw [hbNoStore]
    intro c hc
    exact absurd hc (List.not_mem_nil c)
  have hcbA : canBeAliased p a = false := by
    refine notAliased_closure haNoEsc ?_
    intro c hc
    rw [haHosts c hc]
    exact ⟨hb, hcbB⟩
  constructor <;> simp [Identity, ha, hb, hcbA, hcbB]

/-- Witness for C3 on the `NoEscape` store-test graph: `v0` is stored into
`v5`, neither escapes, and both end `NotAliased`. -/
theorem storeIntoLocalHostNotAliasedWitness :
    wfB exStoreLocal = true ∧ isAllocAt exStoreLocal 0 = true ∧
    isAllocAt exStoreLocal 1 = true ∧ (1 : Nat) ∈ storeHosts exStoreLocal 0 ∧
    Identity exStoreLocal 0 = .NotAliased ∧ Identity exStoreLocal 1 = .NotAliased := by
  have h := storeIntoLocalHostNotAliased exStoreLocal 0 1 (by decide) (by decide)
    (by decide) (by decide) (by decide) (by decide) (by decide) (by decide)
  exact ⟨by decide, by decide, by decide, by decide, h.1, h.2⟩

/-- Modelled from the spec: a Value edge target — either the index of a
Definition in the instruction arena or the distinguished `constant_null`
definition of the graph entry (§3, §9 arena design note). -/
inductive Ref where
  | defn (i : Nat)
  | nullR
deriving DecidableEq

/-- Resolving a Value edge through the current replacement map. -/
def resolve (rho : Nat → Ref) : Ref → Ref
  | .defn i => rho i
  | .nullR => .nullR

/-- Pointwise update of a function at one index. -/
def updFun {α : Type} (f : Nat → α) (k : Nat) (x : α) : Nat → α :=
  fun n => if n = k then x else f n

/-- Modelled from the spec: the mutable optimizer state during the single
pass (§3 lifecycle): the instruction arena (immutable operand lists), the
replacement map for Value edges (`subst v` is where a Value that pointed at
`v` now points), the linked/unlinked status of every instruction, and the
per-definition `AliasIdentity` verdicts. -/
structure PassState where
  prog : Program
  subst : Nat → Ref
  linked : Nat → Bool
  identity : Nat → AliasIdentity

/-- Modelled from the spec: one step of the §4.3 available-value scan for
location `(a, slot)`.  A store to the same slot through `a`'s own use chain
establishes the stored value as available; a store to the same slot through
a different host, or any call, invalidates availability unless the host's
verdict is `NotAliased` (the §4.3 interference rule: for a `NotAliased` host
interference is scoped to the host's own use chain; otherwise conservative);
every other instruction leaves availability unchanged. -/
def scanStep (p : Program) (rho : Nat → Ref) (ident : AliasIdentity)
    (a slot : Nat) (av : Option Ref) (j : Nat) : Option Ref :=
  match p.getD j .allocObj with
  | .storeField h s v =>
      if s = slot then
        if base p h = a then some (rho v)
        else if ident = .NotAliased then av else none
      else av
  | .staticCall _ => if ident = .NotAliased then av else none
  | _ => av

/-- Modelled from the spec: the best known value for the location read by a
load at position `i` from object `obj` (§4.3 contract): the host is resolved
through its wrapper chain to an allocation `a`; availability starts at the
allocation's default null value and is updated by every instruction strictly
between the allocation and the load.  `none` means no value is known and the
load must be kept. -/
def availAt (S : PassState) (i obj slot : Nat) : Option Ref :=
  if isAllocAt S.prog (base S.prog obj) then
    (List.range' (base S.prog obj + 1) (i - (base S.prog obj + 1))).foldl
      (scanStep S.prog S.subst (S.identity (base S.prog obj)) (base S.prog obj) slot)
      (some .nullR)
  else none

/-- Modelled from the spec: processing instruction `i` of the forwarding
phase — a load whose location has a known available value is eliminated:
every Value that pointed at it is repointed to that value and the load is
unlinked from the instruction list, atomically in one state update (§3
Value contract, §4.3 load replacement). -/
def transformStep (S : PassState) (i : Nat) : PassState :=
  match S.prog.getD i .allocObj with
  | .loadField obj slot =>
      match availAt S i obj slot with
      | some r => { S with subst := updFun S.subst i r, linked := updFun S.linked i false }
      | none => S
  | _ => S

/-- Modelled from the spec: the per-definition identity attached after `k`
classifier rounds: an allocation found aliased is `Aliased`; undecided
allocations stay `Unknown` until the fixed point where they resolve to
`NotAliased`; non-allocations are `Unknown` throughout (§4.1, §7). -/
def identityAt (p : Program) (k a : Nat) : AliasIdentity :=
  if isAllocAt p a then
    (if aliasedIter p k a then .Aliased
     else if p.length ≤ k then .NotAliased else .Unknown)
  else .Unknown

/-- Observable state after `k` rounds of the alias classifier, before any
transform has run. -/
def classifyState (p : Program) (k : Nat) : PassState :=
  ⟨p, Ref.defn, fun _ => true, identityAt p k⟩

/-- The forwarding phase: state after the first `n` instructions have been
processed, starting from the classifier's fixed point. -/
def runSteps (p : Program) : Nat → PassState
  | 0 => classifyState p p.length
  | n + 1 => transformStep (runSteps p n) n

/-- Final state of the whole pass. -/
def finalState (p : Program) : PassState := runSteps p p.length

/-- Modelled from the spec: the trace of observable states of the pass (§5
ordering): states `0..p.length` are the classifier rounds reaching the fixed
point, later states are the forwarding steps. -/
def stateAt (p : Program) (n : Nat) : PassState :=
  if n ≤ p.length then classifyState p n else runSteps p (n - (p.length + 1))

theorem runSteps_prog (p : Program) : ∀ n, (runSteps p n).prog = p := by
  intro n
  induction n with
  | zero => rfl
  | succ n ih =>
    show (transformStep (runSteps p n) n).prog = p
    unfold transformStep
    split
    · split
      · exact ih
      · exact ih
    · exact ih

theorem runSteps_identity (p : Program) :
    ∀ n a, (runSteps p n).identity a = identityAt p p.length a := by
  intro n
  induction n with
  | zero => intro a; rfl
  | succ n ih =>
    intro a
    show (transformStep (runSteps p n) n).identity a = _
    unfold transformStep
    split
    · split
      · exact ih a
      · exact ih a
    · exact ih a

theorem transformStep_untouched (S : PassState) (n v : Nat) (hv : v ≠ n) :
    (transformStep S n).subst v = S.subst v ∧
    (transformStep S n).linked v = S.linked v := by
  unfold transformStep
  split
  · split
    · constructor
      · show updFun S.subst n _ v = _
        unfold updFun
        rw [if_neg hv]
      · show updFun S.linked n false v = _
        unfold updFun
        rw [if_neg hv]
    · exact ⟨rfl, rfl⟩
  · exact ⟨rfl, rfl⟩

theorem runSteps_untouched (p : Program) :
    ∀ n v, n ≤ v → (runSteps p n).subst v = .defn v ∧ (runSteps p n).linked v = true := by
  intro n
  induction n with
  | zero => intro v _; exact ⟨rfl, rfl⟩
  | succ n ih =>
    intro v hv
    have hprev := ih v (by omega)
    have hloc := transformStep_untouched (runSteps p n) n v (by omega)
    exact ⟨hloc.1.trans hprev.1, hloc.2.trans hprev.2⟩

theorem runSteps_stable (p : Program) :
    ∀ n m v, v < n → n ≤ m →
      (runSteps p m).subst v = (runSteps p n).subst v ∧
      (runSteps p m).linked v = (runSteps p n).linked v := by
  intro n m v hv hnm
  induction m, hnm using Nat.le_induction with
  | base => exact ⟨rfl, rfl⟩
  | succ m hm ih =>
    have hloc := transformStep_untouched (runSteps p m) m v (by omega)
    exact ⟨hloc.1.trans ih.1, hloc.2.trans ih.2⟩

theorem identityAt_fix (p : Program) (a : Nat) :
    identityAt p p.length a = Identity p a := by
  unfold identityAt Identity canBeAliased
  by_cases h : isAllocAt p a = true
  · rw [if_pos h, if_pos h]
    cases hit : aliasedIter p p.length a <;> simp
  · rw [if_neg h, if_neg h]

theorem foldl_fixed {α β : Type} (f : α → β → α) (init : α)
    (js : List β) (h : ∀ j ∈ js, f init j = init) : js.foldl f init = init := by
  induction js with
  | nil => rfl
  | cons j rest ih =>
    simp only [List.foldl_cons]
    rw [h j (by simp)]
    exact ih fun x hx => h x (by simp [hx])

theorem foldl_killed {α β : Type} (f : Option α → β → Option α) (init : Option α)
    (js : List β) (c : β) (hc : c ∈ js)
    (hkill : ∀ av, f av c = none)
    (habsorb : ∀ j ∈ js, f none j = none) :
    js.foldl f init = none := by
  obtain ⟨l1, l2, rfl⟩ := List.append_of_mem hc
  rw [List.foldl_append]
  simp only [List.foldl_cons]
  rw [hkill]
  exact foldl_fixed f none l2 fun j hj => habsorb j (by simp [hj])

theorem getD_lt_of_shape {p : Program} {i obj slot : Nat}
    (hload : p.getD i .allocObj = .loadField obj slot) : i < p.length := by
  by_contra hge
  rw [List.getD_eq_default _ _ (by omega)] at hload
  exact Instr.noConfusion hload

theorem step_eliminates {p : Program} {i obj slot : Nat} {r : Ref}
    (hload : p.getD i .allocObj = .loadField obj slot)
    (havail : availAt (runSteps p i) i obj slot = some r) :
    (finalState p).linked i = false ∧ (finalState p).subst i = r := by
  have hi : i < p.length := getD_lt_of_shape hload
  have h1 : (runSteps p i).prog = p := runSteps_prog p i
  have hstep : (runSteps p (i + 1)).linked i = false ∧ (runSteps p (i + 1)).subst i = r := by
    show ((transformStep (runSteps p i) i).linked i = false) ∧
      ((transformStep (runSteps p i) i).subst i = r)
    unfold transformStep
    simp only [h1, hload, havail]
    constructor
    · show updFun (runSteps p i).linked i false i = false
      unfold updFun
      rw [if_pos rfl]
    · show updFun (runSteps p i).subst i r i = r
      unfold updFun
      rw [if_pos rfl]
  have hstab := runSteps_stable p (i + 1) p.length i (by omega) (by omega)
  exact ⟨hstab.2.trans hstep.1, hstab.1.trans hstep.2⟩

theorem step_keeps {p : Program} {i obj slot : Nat}
    (hload : p.getD i .allocObj = .loadField obj slot)
    (havail : availAt (runSteps p i) i obj slot = none) :
    (finalState p).linked i = true ∧ (finalState p).subst i = .defn i := by
  have hi : i < p.length := getD_lt_of_shape hload
  have h1 : (runSteps p i).prog = p := runSteps_prog p i
  have huntouched := runSteps_untouched p i i (Nat.le_refl i)
  have hstep : (runSteps p (i + 1)).linked i = true ∧ (runSteps p (i + 1)).subst i = .defn i := by
    show ((transformStep (runSteps p i) i).linked i = true) ∧
      ((transformStep (runSteps p i) i).subst i = .defn i)
    unfold transformStep
    simp only [h1, hload, havail]
    exact ⟨huntouched.2, huntouched.1⟩
  have hstab := runSteps_stable p (i + 1) p.length i (by omega) (by omega)
  exact ⟨hstab.2.trans hstep.1, hstab.1.trans hstep.2⟩

/-- Modelled from the spec: the §8 scenario-4 shape — every use of the
allocation's wrapper closure is a field load: no closure member is passed or
returned, and no store anywhere has a closure member as stored value or as
host. -/
def onlyLoadUses (p : Program) (a : Nat) : Bool :=
  !escapesDirectly p a &&
  (List.range p.length).all fun j =>
    match p.getD j .allocObj with
    | .storeField h _ v => !(base p v == a) && !(base p h == a)
    | _ => true

/-- Modelled from the spec: no store to `slot` and no call strictly between
the allocation `a` and position `i` (the C10 domination window). -/
def noMidStoreOrCall (p : Program) (slot a i : Nat) : Bool :=
  (List.range' (a + 1) (i - (a + 1))).all fun j =>
    match p.getD j .allocObj with
    | .staticCall _ => false
    | .storeField _ s _ => !(s == slot)
    | _ => true

/-- Whether instruction `c` is a call taking a member of `a`'s wrapper
closure as an argument. -/
def callArgAt (p : Program) (c a : Nat) : Bool :=
  match p.getD c .allocObj with
  | .staticCall args => args.any fun v => base p v == a
  | _ => false

/-- No store through `a`'s own use chain to `slot` strictly between `a` and
position `i`. -/
def noChainStore (p : Program) (a slot i : Nat) : Bool :=
  (List.range' (a + 1) (i - (a + 1))).all fun j =>
    match p.getD j .allocObj with
    | .storeField h s _ => !(s == slot && base p h == a)
    | _ => true

theorem availAt_run (p : Program) (i obj slot : Nat) :
    availAt (runSteps p i) i obj slot =
      (if isAllocAt p (base p obj) then
        (List.range' (base p obj + 1) (i - (base p obj + 1))).foldl
          (scanStep p (runSteps p i).subst (Identity p (base p obj)) (base p obj) slot)
          (some .nullR)
      else none) := by
  unfold availAt
  rw [runSteps_prog]
  rw [(runSteps_identity p i (base p obj)).trans (identityAt_fix p (base p obj))]

/-- Straight-line program mirroring `TestAliasingViaRedefinition` with
`make_it_escape = false`: `0: v0 = AllocateObject; 1: v1 = LoadField(v0.f);
2: v2 = Redefinition(v0); 3: StaticCall(v1); 4: v4 = LoadField(v2.f);
5: Return v4`. -/
def exRedefLocal : Program :=
  [.allocObj, .loadField 0 0, .wrapper .redefinition 0, .staticCall [1],
   .loadField 2 0, .ret 4]

/-- Straight-line program mirroring `TestAliasingViaRedefinition` with
`make_it_escape = true`: `0: v0 = AllocateObject; 1: v1 = LoadField(v0.f);
2: v2 = Redefinition(v0); 3: StaticCall(v1, v2); 4: v4 = LoadField(v2.f);
5: Return v4`. -/
def exRedefEscape : Program :=
  [.allocObj, .loadField 0 0, .wrapper .redefinition 0, .staticCall [1, 2],
   .loadField 2 0, .ret 4]

/-- C4: an allocation whose wrapper closure is used only by field loads
(never stored as value or host, never passed, never returned) is classified
`NotAliased`, and every load through the closure is eliminated: the load is
unlinked and every Value that pointed at it is repointed to the allocation's
default null value. -/
theorem onlyLoadUsesEliminated (p : Program) (a : Nat)
    (hwf : wfB p = true) (ha : isAllocAt p a = true)
    (honly : onlyLoadUses p a = true) :
    Identity p a = .NotAliased ∧
    ∀ i obj slot, p.getD i .allocObj = .loadField obj slot → base p obj = a →
      (finalState p).linked i = false ∧ (finalState p).subst i = .nullR := by
  unfold onlyLoadUses at honly
  rw [Bool.and_eq_true] at honly
  obtain ⟨hesc, hstores⟩ := honly
  have hesc2 : escapesDirectly p a = false := by
    cases h : escapesDirectly p a with
    | false => rfl
    | true => rw [h] at hesc; exact Bool.noConfusion hesc
  rw [List.all_eq_true] at hstores
  have hstoref : ∀ j, j < p.length → ∀ h s v, p.getD j .allocObj = .storeField h s v →
      base p v ≠ a ∧ base p h ≠ a := by
    intro j hj h s v hst
    have hfact := hstores j (List.mem_range.mpr hj)
    rw [hst] at hfact
    simp at hfact
    exact hfact
  have hhosts : storeHosts p a = [] := by
    unfold storeHosts
    rw [List.filterMap_eq_nil_iff]
    intro j hj
    rw [List.mem_range] at hj
    cases hg : p.getD j .allocObj with
    | storeField h s v =>
      simp [(hstoref j hj h s v hg).1]
    | allocObj => rfl
    | loadField o s2 => rfl
    | wrapper k o => rfl
    | staticCall args => rfl
    | ret v => rfl
  have hcba : canBeAliased p a = false := by
    refine notAliased_closure hesc2 ?_
    rw [hhosts]
    intro c hc
    exact absurd hc (List.not_mem_nil c)
  have hident : Identity p a = .NotAliased := by simp [Identity, ha, hcba]
  refine ⟨hident, ?_⟩
  intro i obj slot hload hba
  have hi : i < p.length := getD_lt_of_shape hload
  have havail : availAt (runSteps p i) i obj slot = some .nullR := by
    rw [availAt_run, hba, if_pos ha, hident]
    refine foldl_fixed _ _ _ ?_
    intro j hj
    rw [List.mem_range'_1] at hj
    have hjlt : j < i := by omega
    unfold scanStep
    cases hg : p.getD j .allocObj with
    | storeField h s v =>
      have hbh : base p h ≠ a := (hstoref j (by omega) h s v hg).2
      by_cases hs : s = slot
      · simp [hs, hbh]
      · simp [hs]
    | staticCall args => simp
    | allocObj => simp
    | loadField o s2 => simp
    | wrapper k o => simp
    | ret v => simp
  exact step_eliminates hload havail

/-- Witness for C4 on the `NoEscape` redefinition test graph: `v0` ends
`NotAliased`, both loads `v1` (index 1) and `v4` (index 4, through the
redefinition) are unlinked, and their uses are repointed to null. -/
theorem onlyLoadUsesEliminatedWitness :
    (wfB exRedefLocal = true ∧ isAllocAt exRedefLocal 0 = true ∧
      onlyLoadUses exRedefLocal 0 = true) ∧
    Identity exRedefLocal 0 = .NotAliased ∧
    ((finalState exRedefLocal).linked 1 = false ∧
      (finalState exRedefLocal).subst 1 = .nullR) ∧
    ((finalState exRedefLocal).linked 4 = false ∧
      (finalState exRedefLocal).subst 4 = .nullR) :=
  ⟨⟨by decide, by decide, by decide⟩,
   (onlyLoadUsesEliminated exRedefLocal 0 (by decide) (by decide) (by decide)).1,
   (onlyLoadUsesEliminated exRedefLocal 0 (by decide) (by decide) (by decide)).2
     1 0 0 (by decide) (by decide),
   (onlyLoadUsesEliminated exRedefLocal 0 (by decide) (by decide) (by decide)).2
     4 2 0 (by decide) (by decide)⟩

/-- C5: an allocation (or a wrapper of it) passed as a call argument is
classified `Aliased`, and a load from its field after that call (with no
store through its own use chain re-establishing the value) is not
eliminated: it stays linked and Values pointing at it keep pointing at it. -/
theorem escapedLoadAfterCallKept (p : Program) (a c i obj slot : Nat)
    (hwf : wfB p = true) (ha : isAllocAt p a = true)
    (hc : c < p.length) (hcall : callArgAt p c a = true)
    (hload : p.getD i .allocObj = .loadField obj slot) (hba : base p obj = a)
    (hci : c < i) (hnostore : noChainStore p a slot i = true) :
    Identity p a = .Aliased ∧
    (finalState p).linked i = true ∧ (finalState p).subst i = .defn i := by
  have hpass : passedAsArg p a = true := by
    unfold passedAsArg
    rw [List.any_eq_true]
    refine ⟨c, List.mem_range.mpr hc, ?_⟩
    unfold callArgAt at hcall
    exact hcall
  have hesc : escapesDirectly p a = true := by
    unfold escapesDirectly
    rw [hpass]
    rfl
  have hcba : canBeAliased p a = true := aliased_of_escape hesc
  have hident : Identity p a = .Aliased := by simp [Identity, ha, hcba]
  refine ⟨hident, ?_⟩
  have hcall2 := hcall
  unfold callArgAt at hcall2
  obtain ⟨args, hgc, v, hv, hbv⟩ :
      ∃ args, p.getD c .allocObj = .staticCall args ∧ ∃ v, v ∈ args ∧ base p v = a := by
    cases hg : p.getD c .allocObj <;> rw [hg] at hcall2 <;> simp at hcall2
    case staticCall args2 =>
      obtain ⟨v, hv, hbv⟩ := hcall2
      exact ⟨args2, rfl, v, hv, hbv⟩
  have hac : a < c := by
    have hvc : v < c := wf_operand_lt hwf hc (by rw [hgc]; exact hv)
    have := base_le p v
    omega
  unfold noChainStore at hnostore
  rw [List.all_eq_true] at hnostore
  have havail : availAt (runSteps p i) i obj slot = none := by
    rw [availAt_run, hba, if_pos ha, hident]
    refine foldl_killed _ _ _ c ?_ ?_ ?_
    · rw [List.mem_range'_1]
      omega
    · intro av
      unfold scanStep
      rw [hgc]
      simp
    · intro j hj
      have hfact := hnostore j hj
      unfold scanStep
      cases hg : p.getD j .allocObj with
      | storeField h s v2 =>
        rw [hg] at hfact
        simp at hfact
        by_cases hs : s = slot
        · have hbh : base p h ≠ a := by
            cases hfact with
            | inl h2 => exact absurd hs h2
            | inr h2 => exact h2
          simp [hs, hbh]
        · simp [hs]
      | staticCall args2 => simp
      | allocObj => rfl
      | loadField o s2 => rfl
      | wrapper k o => rfl
      | ret v2 => rfl
  exact step_keeps hload havail

/-- Witness for C5 on the `Escape` redefinition test graph: `v0` escapes via
its redefinition passed to the call, ends `Aliased`, and the post-call load
`v4` (index 4) stays linked with its Value edge intact. -/
theorem escapedLoadAfterCallKeptWitness :
    (wfB exRedefEscape = true ∧ isAllocAt exRedefEscape 0 = true ∧
      callArgAt exRedefEscape 3 0 = true ∧ noChainStore exRedefEscape 0 0 4 = true) ∧
    Identity exRedefEscape 0 = .Aliased ∧
    (finalState exRedefEscape).linked 4 = true ∧
    (finalState exRedefEscape).subst 4 = .defn 4 :=
  ⟨⟨by decide, by decide, by decide, by decide⟩,
   (escapedLoadAfterCallKept exRedefEscape 0 3 4 2 0 (by decide) (by decide)
      (by decide) (by decide) (by decide) (by decide) (by decide) (by decide)).1,
   (escapedLoadAfterCallKept exRedefEscape 0 3 4 2 0 (by decide) (by decide)
      (by decide) (by decide) (by decide) (by decide) (by decide) (by decide)).2.1,
   (escapedLoadAfterCallKept exRedefEscape 0 3 4 2 0 (by decide) (by decide)
      (by decide) (by decide) (by decide) (by decide) (by decide) (by decide)).2.2⟩

/-- C10: a load dominated by the allocation of its host with no store to the
same slot and no call strictly between them is forwarded to the allocation's
default null value and unlinked, with no assumption on the allocation's
alias classification (so it holds in the escape and no-escape
configurations alike). -/
theorem dominatedLoadForwarded (p : Program) (a i obj slot : Nat)
    (hwf : wfB p = true) (ha : isAllocAt p a = true)
    (hload : p.getD i .allocObj = .loadField obj slot) (hba : base p obj = a)
    (hquiet : noMidStoreOrCall p slot a i = true) :
    (finalState p).linked i = false ∧ (finalState p).subst i = .nullR := by
  unfold noMidStoreOrCall at hquiet
  rw [List.all_eq_true] at hquiet
  have havail : availAt (runSteps p i) i obj slot = some .nullR := by
    rw [availAt_run, hba, if_pos ha]
    refine foldl_fixed _ _ _ ?_
    intro j hj
    have hfact := hquiet j hj
    unfold scanStep
    cases hg : p.getD j .allocObj with
    | staticCall args =>
      rw [hg] at hfact
      simp at hfact
    | storeField h s v =>
      rw [hg] at hfact
      simp at hfact
      simp [hfact]
    | allocObj => rfl
    | loadField o s2 => rfl
    | wrapper k o => rfl
    | ret v => rfl
  exact step_eliminates hload havail

/-- Witness for C10: in both the escape configuration (`v0` is `Aliased`)
and the no-escape configuration (`v0` is `NotAliased`), the pre-call load
`v1` (index 1) is forwarded to constant null and unlinked. -/
theorem dominatedLoadForwardedWitness :
    (Identity exRedefEscape 0 = .Aliased ∧
      (finalState exRedefEscape).linked 1 = false ∧
      (finalState exRedefEscape).subst 1 = .nullR) ∧
    (Identity exRedefLocal 0 = .NotAliased ∧
      (finalState exRedefLocal).linked 1 = false ∧
      (finalState exRedefLocal).subst 1 = .nullR) :=
  ⟨⟨by decide,
    (dominatedLoadForwarded exRedefEscape 0 1 0 0 (by decide) (by decide)
      (by decide) (by decide) (by decide)).1,
    (dominatedLoadForwarded exRedefEscape 0 1 0 0 (by decide) (by decide)
      (by decide) (by decide) (by decide)).2⟩,
   ⟨by decide,
    (dominatedLoadForwarded exRedefLocal 0 1 0 0 (by decide) (by decide)
      (by decide) (by decide) (by decide)).1,
    (dominatedLoadForwarded exRedefLocal 0 1 0 0 (by decide) (by decide)
      (by decide) (by decide) (by decide)).2⟩⟩

theorem identityAt_aliased_iff (p : Program) (k a : Nat) :
    identityAt p k a = .Aliased ↔
      (isAllocAt p a = true ∧ aliasedIter p k a = true) := by
  unfold identityAt
  by_cases ha : isAllocAt p a = true
  · cases hit : aliasedIter p k a <;> simp [ha, hit]
    by_cases hk : p.length ≤ k <;> simp [hk]
  · simp [ha]

theorem stateAt_identity (p : Program) (n a : Nat) :
    (stateAt p n).identity a = identityAt p (min n p.length) a := by
  unfold stateAt
  by_cases hn : n ≤ p.length
  · rw [if_pos hn]
    show identityAt p n a = _
    rw [Nat.min_eq_left hn]
  · rw [if_neg hn]
    rw [runSteps_identity]
    rw [Nat.min_eq_right (by omega)]

/-- C8: escape monotonicity — once a definition's verdict is `Aliased` at any
observable state of the pass (classifier rounds or forwarding steps), it is
`Aliased` at every later state; no step downgrades it to `NotAliased` or
`Unknown` (the forwarding phase never writes identities at all). -/
theorem escapeMonotonicity (p : Program) (a s t : Nat) (hst : s ≤ t)
    (h : (stateAt p s).identity a = .Aliased) :
    (stateAt p t).identity a = .Aliased := by
  rw [stateAt_identity] at h ⊢
  rw [identityAt_aliased_iff] at h ⊢
  obtain ⟨ha, hit⟩ := h
  exact ⟨ha, aliasedIter_mono (show min s p.length ≤ min t p.length by omega) hit⟩

/-- Witness for C8: on the escaping redefinition graph the allocation is
already `Aliased` at the first classifier state and remains so at the final
state of the pass. -/
theorem escapeMonotonicityWitness :
    (0 : Nat) ≤ 12 ∧ (stateAt exRedefEscape 0).identity 0 = .Aliased ∧
    (stateAt exRedefEscape 12).identity 0 = .Aliased :=
  ⟨by omega, by decide,
   escapeMonotonicity exRedefEscape 0 0 12 (by omega) (by decide)⟩

/-- Modelled from the spec: the §7 soundness invariant — every Value edge of
a linked instruction, resolved through the current replacement map, points
at the null constant or at a still-linked Definition (no Value references an
unlinked Definition). -/
def noDanglingUses (S : PassState) : Prop :=
  ∀ i, S.linked i = true →
    ∀ v, v ∈ (S.prog.getD i .allocObj).operands →
      resolve S.subst (.defn v) = .nullR ∨
      ∃ j, resolve S.subst (.defn v) = .defn j ∧ S.linked j = true

/-- Invariant carried through the forwarding steps: indices not yet processed
are untouched; processed indices are either kept (pointing at themselves) or
replaced by null or by an already-processed, still-linked definition. -/
def substOk (n : Nat) (S : PassState) : Prop :=
  (∀ v, n ≤ v → S.subst v = .defn v ∧ S.linked v = true) ∧
  (∀ v, v < n → S.subst v = .nullR ∨
    ∃ j, S.subst v = .defn j ∧ S.linked j = true ∧ j < n)

theorem scan_result_shape {p : Program} (hwf : wfB p = true)
    (rho : Nat → Ref) (ident : AliasIdentity) (a slot i : Nat) :
    ∀ (js : List Nat), (∀ j ∈ js, j < i ∧ j < p.length) →
    ∀ (av : Option Ref),
      (av = none ∨ av = some .nullR ∨ ∃ v2, v2 < i ∧ av = some (rho v2)) →
      (js.foldl (scanStep p rho ident a slot) av = none ∨
       js.foldl (scanStep p rho ident a slot) av = some .nullR ∨
       ∃ v2, v2 < i ∧ js.foldl (scanStep p rho ident a slot) av = some (rho v2)) := by
  intro js
  induction js with
  | nil => intro _ av hav; exact hav
  | cons j rest ih =>
    intro hjs av hav
    simp only [List.foldl_cons]
    refine ih (fun x hx => hjs x (by simp [hx])) _ ?_
    have hj := hjs j (by simp)
    unfold scanStep
    cases hg : p.getD j .allocObj with
    | storeField h s v =>
      have hv : v < j := wf_operand_lt hwf hj.2 (by rw [hg]; simp [Instr.operands])
      by_cases hs : s = slot
      · by_cases hb : base p h = a
        · simp only [hs, hb, if_pos rfl]
          right; right
          exact ⟨v, by omega, rfl⟩
        · simp only [hs, if_pos rfl, if_neg hb]
          by_cases hid : ident = .NotAliased
          · simp [hid]; exact hav
          · simp [hid]
      · simp [hs]; exact hav
    | staticCall args =>
      by_cases hid : ident = .NotAliased
      · simp [hid]; exact hav
      · simp [hid]
    | allocObj => exact hav
    | loadField o s2 => exact hav
    | wrapper k o => exact hav
    | ret v => exact hav

theorem updFun_same {α : Type} (f : Nat → α) (k : Nat) (x : α) :
    updFun f k x k = x := by
  unfold updFun
  rw [if_pos rfl]

theorem updFun_other {α : Type} (f : Nat → α) (k : Nat) (x : α) {v : Nat}
    (hv : v ≠ k) : updFun f k x v = f v := by
  unfold updFun
  rw [if_neg hv]

theorem substOk_step {p : Program} (hwf : wfB p = true) (n : Nat)
    (h : substOk n (runSteps p n)) : substOk (n + 1) (runSteps p (n + 1)) := by
  show substOk (n + 1) (transformStep (runSteps p n) n)
  have hsame : substOk (n + 1) (runSteps p n) := by
    refine ⟨fun v hv => h.1 v (by omega), fun v hv => ?_⟩
    by_cases hvn : v = n
    · right
      refine ⟨n, ?_, ?_, by omega⟩
      · rw [hvn]; exact (h.1 n (Nat.le_refl n)).1
      · exact (h.1 n (Nat.le_refl n)).2
    · cases h.2 v (by omega) with
      | inl h2 => exact Or.inl h2
      | inr h2 =>
        obtain ⟨j, h1, h2b, h3⟩ := h2
        exact Or.inr ⟨j, h1, h2b, by omega⟩
  unfold transformStep
  split
  · next obj slot heq =>
    split
    · next r havail =>
      have hload : p.getD n .allocObj = .loadField obj slot := by
        rw [← runSteps_prog p n]
        exact heq
      have hn : n < p.length := getD_lt_of_shape hload
      have hshape : r = .nullR ∨
          ∃ v2, v2 < n ∧ r = (runSteps p n).subst v2 := by
        rw [availAt_run] at havail
        by_cases hia : isAllocAt p (base p obj) = true
        · rw [if_pos hia] at havail
          have hres := scan_result_shape hwf (runSteps p n).subst
            (Identity p (base p obj)) (base p obj) slot n
            (List.range' (base p obj + 1) (n - (base p obj + 1)))
            (by
              intro j hj
              rw [List.mem_range'_1] at hj
              omega)
            (some .nullR) (Or.inr (Or.inl rfl))
          rw [havail] at hres
          cases hres with
          | inl h2 => exact Option.noConfusion h2
          | inr h2 =>
            cases h2 with
            | inl h2 => exact Or.inl (Option.some.inj h2)
            | inr h2 =>
              obtain ⟨v2, hv2, he⟩ := h2
              exact Or.inr ⟨v2, hv2, Option.some.inj he⟩
        · rw [if_neg hia] at havail
          exact Option.noConfusion havail
      constructor
      · intro v hv
        show updFun (runSteps p n).subst n r v = .defn v ∧
          updFun (runSteps p n).linked n false v = true
        rw [updFun_other _ _ _ (by omega), updFun_other _ _ _ (by omega)]
        exact h.1 v (by omega)
      · intro v hv
        show updFun (runSteps p n).subst n r v = .nullR ∨
          ∃ j, updFun (runSteps p n).subst n r v = .defn j ∧
            updFun (runSteps p n).linked n false j = true ∧ j < n + 1
        by_cases hvn : v = n
        · rw [hvn, updFun_same]
          cases hshape with
          | inl h2 => exact Or.inl h2
          | inr h2 =>
            obtain ⟨v2, hv2, hr⟩ := h2
            cases h.2 v2 hv2 with
            | inl h3 => exact Or.inl (hr.trans h3)
            | inr h3 =>
              obtain ⟨j, h4, h5, h6⟩ := h3
              refine Or.inr ⟨j, hr.trans h4, ?_, by omega⟩
              rw [updFun_other _ _ _ (by omega)]
              exact h5
        · rw [updFun_other _ _ _ hvn]
          cases h.2 v (by omega) with
          | inl h2 => exact Or.inl h2
          | inr h2 =>
            obtain ⟨j, h1, h2b, h3⟩ := h2
            refine Or.inr ⟨j, h1, ?_, by omega⟩
            rw [updFun_other _ _ _ (by omega)]
            exact h2b
    · exact hsame
  · exact hsame

theorem substOk_all {p : Program} (hwf : wfB p = true) :
    ∀ n, substOk n (runSteps p n) := by
  intro n
  induction n with
  | zero => exact ⟨fun v _ => ⟨rfl, rfl⟩, fun v hv => absurd hv (by omega)⟩
  | succ n ih => exact substOk_step hwf n ih

/-- C9: at no observable state of the pass — classifier rounds or any point
of the forwarding phase — does a Value of a linked instruction reference an
unlinked Definition: each elimination repoints every Value at the removed
load to its replacement atomically with the unlinking, so resolved Value
edges always land on constant null or a linked Definition. -/
theorem noDanglingValues (p : Program) (hwf : wfB p = true) :
    ∀ n, noDanglingUses (stateAt p n) := by
  intro n
  unfold stateAt
  by_cases hn : n ≤ p.length
  · rw [if_pos hn]
    intro i hi v hv
    right
    exact ⟨v, rfl, rfl⟩
  · rw [if_neg hn]
    have hok := substOk_all hwf (n - (p.length + 1))
    intro i hi v hv
    show (runSteps p (n - (p.length + 1))).subst v = .nullR ∨ _
    by_cases hvm : n - (p.length + 1) ≤ v
    · right
      exact ⟨v, (hok.1 v hvm).1, (hok.1 v hvm).2⟩
    · cases hok.2 v (by omega) with
      | inl h2 => exact Or.inl h2
      | inr h2 =>
        obtain ⟨j, h1, h2b, _⟩ := h2
        exact Or.inr ⟨j, h1, h2b⟩

/-- Witness for C9 on the escaping redefinition graph: the no-dangling
invariant holds at every observable state of its pass. -/
theorem noDanglingValuesWitness :
    wfB exRedefEscape = true ∧ ∀ n, noDanglingUses (stateAt exRedefEscape n) :=
  ⟨by decide, noDanglingValues exRedefEscape (by decide)⟩

/-- Modelled from the spec: an environment-variable access inside a basic
block — a read of a local slot or a full (re)definition of it (§4.4). -/
inductive VStmt where
  | use (v : Nat)
  | assign (v : Nat)
deriving DecidableEq

/-- The environment index accessed by a statement. -/
def VStmt.var : VStmt → Nat
  | .use v => v
  | .assign v => v

/-- Modelled from the spec: the control-flow graph the Catch-Entry
Environment Synchronizer reads (§4.4, §6): per-block ordered statement
lists over flat environment indices, per-block successor lists (exceptional
edges included), the catch-entry block and the environment size. -/
structure TryGraph where
  code : List (List VStmt)
  succs : List (List Nat)
  catchEntry : Nat
  nvars : Nat
deriving DecidableEq

def codeAt (g : TryGraph) (b : Nat) : List VStmt := g.code.getD b []

def succsAt (g : TryGraph) (b : Nat) : List Nat :=
  if b < g.code.length then g.succs.getD b [] else []

/-- Environment indices of all statements lie below the environment size. -/
def vwfB (g : TryGraph) : Bool :=
  g.code.all fun blk => blk.all fun s => decide (s.var < g.nvars)

/-- Variables read in a block before any full redefinition of them. -/
def genOf : List VStmt → Finset Nat
  | [] => ∅
  | .use v :: rest => insert v (genOf rest)
  | .assign v :: rest => genOf rest \ {v}

/-- Variables fully redefined somewhere in a block. -/
def killOf : List VStmt → Finset Nat
  | [] => ∅
  | .use _ :: rest => killOf rest
  | .assign v :: rest => insert v (killOf rest)

/-- Union of the live-in sets of a block's successors. -/
def liveOutOf (L : Nat → Finset Nat) (ss : List Nat) : Finset Nat :=
  ss.foldr (fun c acc => L c ∪ acc) ∅

/-- Modelled from the spec: one backward-liveness transfer of the
Synchronizer's fixed point (§4.4 state machine): a variable is needed at
block entry when the block reads it before redefining it, or when a
successor needs it and the block does not fully redefine it. -/
def stepL (g : TryGraph) (L : Nat → Finset Nat) (b : Nat) : Finset Nat :=
  genOf (codeAt g b) ∪ (liveOutOf L (succsAt g b) \ killOf (codeAt g b))

/-- One whole round of the worklist: every block's set is recomputed from
the previous round. -/
def stepState (g : TryGraph) (st : List (Finset Nat)) : List (Finset Nat) :=
  (List.range g.code.length).map fun b => stepL g (fun c => st.getD c ∅) b

/-- Modelled from the spec: the Synchronizer's fixed-point iteration (§4.4):
round `0` marks nothing live; each round propagates one transfer across
every block, so loop-carried liveness crosses back edges after enough
rounds. -/
def iterState (g : TryGraph) : Nat → List (Finset Nat)
  | 0 => List.replicate g.code.length ∅
  | k + 1 => stepState g (iterState g k)

/-- Live-in set of block `b` after `k` rounds. -/
def liveInAt (g : TryGraph) (k b : Nat) : Finset Nat :=
  (iterState g k).getD b ∅

/-- Enough rounds to reach the fixed point (proved below). -/
def syncBound (g : TryGraph) : Nat := g.code.length * g.nvars + 1

/-- Modelled from the spec: the synchronized set recorded on the catch
entry — the environment indices live into the handler at its fixed point
(`OptimizeCatchEntryStates` outcome checked by `TryCatchOptimizerTest`). -/
def synchronizedSet (g : TryGraph) : Finset Nat :=
  liveInAt g (syncBound g) g.catchEntry

theorem liveInAt_zero (g : TryGraph) (b : Nat) : liveInAt g 0 b = ∅ := by
  unfold liveInAt iterState
  by_cases hb : b < g.code.length
  · rw [List.getD_eq_getElem _ _ (by simpa using hb)]
    simp
  · rw [List.getD_eq_default _ _ (by simp; omega)]

theorem stepL_out (g : TryGraph) (L : Nat → Finset Nat) (b : Nat)
    (hb : g.code.length ≤ b) : stepL g L b = ∅ := by
  unfold stepL codeAt succsAt
  rw [List.getD_eq_default _ _ hb, if_neg (by omega)]
  simp [genOf, killOf, liveOutOf]

theorem liveIn_succ (g : TryGraph) (k b : Nat) :
    liveInAt g (k + 1) b = stepL g (liveInAt g k) b := by
  by_cases hb : b < g.code.length
  · show (stepState g (iterState g k)).getD b ∅ = _
    unfold stepState
    rw [List.getD_eq_getElem _ _ (by simpa using hb)]
    rw [List.getElem_map, List.getElem_range]
    rfl
  · show (stepState g (iterState g k)).getD b ∅ = _
    unfold stepState
    rw [List.getD_eq_default _ _ (by simp; omega)]
    rw [stepL_out g _ b (by omega)]

theorem mem_liveOutOf (L : Nat → Finset Nat) (ss : List Nat) (v : Nat) :
    v ∈ liveOutOf L ss ↔ ∃ c ∈ ss, v ∈ L c := by
  induction ss with
  | nil => simp [liveOutOf]
  | cons c rest ih =>
    show v ∈ L c ∪ liveOutOf L rest ↔ _
    rw [Finset.mem_union, ih]
    simp

theorem stepL_mono (g : TryGraph) {L M : Nat → Finset Nat}
    (h : ∀ b, L b ⊆ M b) (b : Nat) : stepL g L b ⊆ stepL g M b := by
  unfold stepL
  refine Finset.union_subset_union (Finset.Subset.refl _) ?_
  refine Finset.sdiff_subset_sdiff ?_ (Finset.Subset.refl _)
  intro v hv
  rw [mem_liveOutOf] at hv ⊢
  obtain ⟨c, hc, hvc⟩ := hv
  exact ⟨c, hc, h c hvc⟩

theorem liveInAt_mono_succ (g : TryGraph) :
    ∀ k b, liveInAt g k b ⊆ liveInAt g (k + 1) b := by
  intro k
  induction k with
  | zero =>
    intro b
    rw [liveInAt_zero]
    exact Finset.empty_subset _
  | succ k ih =>
    intro b
    rw [liveIn_succ, liveIn_succ]
    exact stepL_mono g ih b

theorem genOf_subset {blk : List VStmt} {n : Nat}
    (h : ∀ s ∈ blk, s.var < n) : genOf blk ⊆ Finset.range n := by
  induction blk with
  | nil => simp [genOf]
  | cons s rest ih =>
    cases s with
    | use v =>
      show insert v (genOf rest) ⊆ _
      rw [Finset.insert_subset_iff]
      refine ⟨Finset.mem_range.mpr (h (.use v) (by simp)), ?_⟩
      exact ih fun x hx => h x (by simp [hx])
    | assign v =>
      show genOf rest \ {v} ⊆ _
      refine Finset.Subset.trans (Finset.sdiff_subset) ?_
      exact ih fun x hx => h x (by simp [hx])

theorem genOf_codeAt_subset (g : TryGraph) (hwf : vwfB g = true) (b : Nat) :
    genOf (codeAt g b) ⊆ Finset.range g.nvars := by
  unfold codeAt
  by_cases hb : b < g.code.length
  · have hmem : g.code.getD b [] ∈ g.code := by
      rw [List.getD_eq_getElem _ _ hb]
      exact List.getElem_mem hb
    unfold vwfB at hwf
    rw [List.all_eq_true] at hwf
    have hall := hwf _ hmem
    rw [List.all_eq_true] at hall
    exact genOf_subset fun s hs => of_decide_eq_true (hall s hs)
  · rw [List.getD_eq_default _ _ (by omega)]
    simp [genOf]

theorem liveInAt_subset_range (g : TryGraph) (hwf : vwfB g = true) :
    ∀ k b, liveInAt g k b ⊆ Finset.range g.nvars := by
  intro k
  induction k with
  | zero =>
    intro b
    rw [liveInAt_zero]
    exact Finset.empty_subset _
  | succ k ih =>
    intro b
    rw [liveIn_succ]
    unfold stepL
    refine Finset.union_subset (genOf_codeAt_subset g hwf b) ?_
    refine Finset.Subset.trans (Finset.sdiff_subset) ?_
    intro v hv
    rw [mem_liveOutOf] at hv
    obtain ⟨c, hc, hvc⟩ := hv
    exact ih c hvc

theorem liveInAt_out (g : TryGraph) :
    ∀ k b, g.code.length ≤ b → liveInAt g k b = ∅ := by
  intro k
  cases k with
  | zero => intro b _; exact liveInAt_zero g b
  | succ k =>
    intro b hb
    rw [liveIn_succ]
    exact stepL_out g _ b hb

/-- Total size of the live sets after `k` rounds, the pigeonhole measure. -/
def liveMeasure (g : TryGraph) (k : Nat) : Nat :=
  (Finset.range g.code.length).sum fun b => (liveInAt g k b).card

theorem exists_live_fix (g : TryGraph) (hwf : vwfB g = true) :
    ∃ k ≤ g.code.length * g.nvars, ∀ b, liveInAt g k b = liveInAt g (k + 1) b := by
  by_contra hcon
  push_neg at hcon
  have hstep : ∀ k, k ≤ g.code.length * g.nvars →
      liveMeasure g k + 1 ≤ liveMeasure g (k + 1) := by
    intro k hk
    obtain ⟨b, hb⟩ := hcon k hk
    have hblt : b < g.code.length := by
      by_contra hge
      rw [liveInAt_out g k b (by omega), liveInAt_out g (k + 1) b (by omega)] at hb
      exact hb rfl
    have hss : liveInAt g k b ⊂ liveInAt g (k + 1) b :=
      Finset.ssubset_iff_subset_ne.mpr ⟨liveInAt_mono_succ g k b, hb⟩
    have hlt : (liveInAt g k b).card < (liveInAt g (k + 1) b).card :=
      Finset.card_lt_card hss
    have hsum : liveMeasure g k < liveMeasure g (k + 1) := by
      unfold liveMeasure
      refine Finset.sum_lt_sum ?_ ?_
      · intro i _
        exact Finset.card_le_card (liveInAt_mono_succ g k i)
      · exact ⟨b, Finset.mem_range.mpr hblt, hlt⟩
    omega
  have hge : ∀ k, k ≤ g.code.length * g.nvars + 1 → k ≤ liveMeasure g k := by
    intro k
    induction k with
    | zero => intro _; exact Nat.zero_le _
    | succ k ih =>
      intro hk
      have h1 := hstep k (by omega)
      have h2 := ih (by omega)
      omega
  have hbound : liveMeasure g (g.code.length * g.nvars + 1) ≤ g.code.length * g.nvars := by
    unfold liveMeasure
    calc (Finset.range g.code.length).sum (fun b => (liveInAt g (g.code.length * g.nvars + 1) b).card)
        ≤ (Finset.range g.code.length).sum fun _ => g.nvars := by
          refine Finset.sum_le_sum ?_
          intro i _
          calc (liveInAt g (g.code.length * g.nvars + 1) i).card
              ≤ (Finset.range g.nvars).card :=
                Finset.card_le_card (liveInAt_subset_range g hwf _ i)
            _ = g.nvars := Finset.card_range _
      _ = g.code.length * g.nvars := by
          rw [Finset.sum_const, Finset.card_range, smul_eq_mul]
  have := hge (g.code.length * g.nvars + 1) (Nat.le_refl _)
  omega

theorem liveInAt_stable (g : TryGraph) {k : Nat}
    (hfix : ∀ b, liveInAt g k b = liveInAt g (k + 1) b) :
    ∀ m, k ≤ m → ∀ b, liveInAt g m b = liveInAt g k b := by
  intro m hm
  induction m, hm using Nat.le_induction with
  | base => intro b; rfl
  | succ m hkm ih =>
    intro b
    have hfun : liveInAt g m = liveInAt g k := funext ih
    rw [liveIn_succ, hfun, ← liveIn_succ]
    exact (hfix b).symm

theorem liveIn_fixpoint (g : TryGraph) (hwf : vwfB g = true) :
    ∀ b, liveInAt g (syncBound g) b = stepL g (liveInAt g (syncBound g)) b := by
  obtain ⟨k, hk, hfix⟩ := exists_live_fix g hwf
  intro b
  have e1 : liveInAt g (syncBound g) = liveInAt g k :=
    funext (liveInAt_stable g hfix (syncBound g) (by unfold syncBound; omega))
  rw [e1]
  calc liveInAt g k b
      = liveInAt g (k + 1) b := hfix b
    _ = stepL g (liveInAt g k) b := liveIn_succ g k b

/-- Modelled from the spec: the path-based characterization of what the
synchronized set must contain (§4.4 contract, §8 synchronizer property):
variable `v` reaches a use from block `b` when `b` itself reads `v` before
redefining it, or when some successor (possibly across a loop back edge)
reaches a use of `v` and `b` does not redefine `v`. -/
inductive ReachUse (g : TryGraph) (v : Nat) : Nat → Prop where
  | here (b : Nat) (h : v ∈ genOf (codeAt g b)) : ReachUse g v b
  | there (b c : Nat) (hc : c ∈ succsAt g b) (hk : v ∉ killOf (codeAt g b))
      (hr : ReachUse g v c) : ReachUse g v b

theorem reachUse_of_mem (g : TryGraph) :
    ∀ k b v, v ∈ liveInAt g k b → ReachUse g v b := by
  intro k
  induction k with
  | zero =>
    intro b v hv
    rw [liveInAt_zero] at hv
    exact absurd hv (Finset.not_mem_empty v)
  | succ k ih =>
    intro b v hv
    rw [liveIn_succ] at hv
    unfold stepL at hv
    rw [Finset.mem_union] at hv
    cases hv with
    | inl h => exact ReachUse.here b h
    | inr h =>
      rw [Finset.mem_sdiff] at h
      obtain ⟨hlo, hnk⟩ := h
      rw [mem_liveOutOf] at hlo
      obtain ⟨c, hc, hvc⟩ := hlo
      exact ReachUse.there b c hc hnk (ih c v hvc)

theorem mem_of_reachUse (g : TryGraph) (hwf : vwfB g = true) {v b : Nat}
    (h : ReachUse g v b) : v ∈ liveInAt g (syncBound g) b := by
  induction h with
  | here b hb =>
    rw [liveIn_fixpoint g hwf b]
    unfold stepL
    rw [Finset.mem_union]
    exact Or.inl hb
  | there b c hc hnk hr ih =>
    rw [liveIn_fixpoint g hwf b]
    unfold stepL
    rw [Finset.mem_union, Finset.mem_sdiff, mem_liveOutOf]
    exact Or.inr ⟨⟨c, hc, ih⟩, hnk⟩

/-- CFG of `TryCatchOptimizer_DeadParameterElimination_Simple1`: block 0
defines `a`(0) and `b`(1); block 1 is the try body using both; block 2 is
the catch handler referencing nothing; block 3 is the exit. -/
def trySimple1 : TryGraph :=
  ⟨[[.assign 0, .assign 1], [.use 0, .use 1], [], []],
   [[1], [2, 3], [3], []], 2, 2⟩

/-- CFG of `TryCatchOptimizer_DeadParameterElimination_Simple2`: same shape,
but the catch handler uses `a`(0). -/
def trySimple2 : TryGraph :=
  ⟨[[.assign 0, .assign 1], [.use 0, .use 1], [.use 0], []],
   [[1], [2, 3], [3], []], 2, 2⟩

/-- CFG of `TryCatchOptimizer_DeadParameterElimination_Cyclic1`: block 0
defines `a`(0), `b`(1), `i`(2); block 1 is the loop condition using `i`;
block 2 redefines `b` each iteration; block 3 is the try body using `a` and
`b` with an exceptional edge to the handler; block 4 increments `i` and
closes the back edge; block 5 is the empty catch handler falling through to
the increment; block 6 is the exit. -/
def tryCyclic1 : TryGraph :=
  ⟨[[.assign 0, .assign 1, .assign 2], [.use 2], [.assign 1],
    [.use 0, .use 1], [.use 2, .assign 2], [], []],
   [[1], [2, 6], [3], [4, 5], [1], [4], []], 5, 3⟩

/-- C6: exactness of the Synchronizer — the synchronized set of the catch
entry contains exactly the environment indices from which a use is reachable
along control flow from the handler entry, directly or through loop-carried
back edges, with no full redefinition in between: no extra indices and no
missing ones. -/
theorem synchronizedExact (g : TryGraph) (v : Nat) (hwf : vwfB g = true) :
    v ∈ synchronizedSet g ↔ ReachUse g v g.catchEntry := by
  unfold synchronizedSet
  constructor
  · exact reachUse_of_mem g (syncBound g) g.catchEntry v
  · exact mem_of_reachUse g hwf

/-- Witness for C6: the exactness instance on the `Simple1` graph, plus the
two spec scenarios — a handler referencing nothing synchronizes nothing,
and a handler using only `a` synchronizes exactly `{a}`. -/
theorem synchronizedExactWitness :
    (vwfB trySimple1 = true ∧
      ((0 : Nat) ∈ synchronizedSet trySimple1 ↔
        ReachUse trySimple1 0 trySimple1.catchEntry)) ∧
    synchronizedSet trySimple1 = ∅ ∧ synchronizedSet trySimple2 = {0} :=
  ⟨⟨by decide, synchronizedExact trySimple1 0 (by decide)⟩, by decide, by decide⟩

set_option maxRecDepth 8000 in
/-- C7: on the loop scenario `for(i) { b = f(); try { use(a,b) } catch(e) {} }`
with `a` defined before the loop, the Synchronizer's fixed point synchronizes
exactly `{a, i}` — both cross the loop back edge into later iterations'
handler reachability — and `b` is not synchronized because it is fully
redefined before each protected region. -/
theorem synchronizedLoopScenario :
    synchronizedSet tryCyclic1 = {0, 2} ∧
    (1 : Nat) ∉ synchronizedSet tryCyclic1 := by
  decide

end RE
